import Mathlib

/-!
Verification of the scholarphi data-processing core against its specification.

The development shallowly embeds:
- the entity–location join and schema resolution of
  `data-processing/common/commands/upload_entities.py`;
- the bibliography extractor state machine of
  `data-processing/explanations/scrape_tex.py` (with the TexSoup parse
  adapter abstracted as a function producing a tree of content nodes).

Machine strings are modelled as `String` (labels, opaque identifiers) and
`List Char` (text that the code processes character by character).
-/

set_option autoImplicit false

namespace ScholarPhi

/-! ## Entity–location join (upload_entities.py)

`SerializableEntity` and `HueLocationInfo` live in `common/types`; the join
reads only the identity fields `id_`/`tex_path` resp. `entity_id`/`tex_path`.
The remaining (type-specific resp. geometric) fields are opaque to the join
and are carried as a type parameter. -/

structure SerializableEntity (α : Type) where
  id_ : String
  tex_path : String
  extra : α
deriving DecidableEq

structure HueLocationInfo (γ : Type) where
  entity_id : String
  tex_path : String
  geom : γ
deriving DecidableEq

structure EntityAndLocation (α γ : Type) where
  entity : SerializableEntity α
  locations : List (HueLocationInfo γ)
deriving DecidableEq

/-- Inner loop of `UploadEntitiesCommand.load` (upload_entities.py lines 83–86):
collect, in input order, every location whose `(entity_id, tex_path)` equals
the entity's `(id_, tex_path)`. -/
def matchingLocations {α γ : Type} (entity : SerializableEntity α) :
    List (HueLocationInfo γ) → List (HueLocationInfo γ)
  | [] => []
  | h :: rest =>
    if h.entity_id = entity.id_ ∧ h.tex_path = entity.tex_path then
      h :: matchingLocations entity rest
    else
      matchingLocations entity rest

/-- Outer loop of `UploadEntitiesCommand.load` (upload_entities.py lines 81–88):
one `EntityAndLocation` appended per input entity, in input order. -/
def joinEntities {α γ : Type} :
    List (SerializableEntity α) → List (HueLocationInfo γ) → List (EntityAndLocation α γ)
  | [], _ => []
  | e :: rest, locs => ⟨e, matchingLocations e locs⟩ :: joinEntities rest locs

/-- The join as the specification words it: map each entity to the locations
selected by filtering the input location sequence on the composite key. -/
def joinSpec {α γ : Type} (entities : List (SerializableEntity α))
    (locs : List (HueLocationInfo γ)) : List (EntityAndLocation α γ) :=
  entities.map fun e =>
    ⟨e, locs.filter fun h => decide (h.entity_id = e.id_ ∧ h.tex_path = e.tex_path)⟩

/-! ## Schema resolution (upload_entities.py lines 31–40 and 133–150) -/

/-- The entity type resolved for a file: either the base `SerializableEntity`
(`generic`) or a concrete subclass, identified here by name. -/
inductive EntitySchema where
  | generic
  | specific (name : String)
deriving DecidableEq

/-- The `DetectedEntityType` argument of `make_upload_entities_command`:
`None`, a single type, or a dictionary from file names to types. -/
inductive DetectedEntityTypeArg where
  | noneArg
  | single (t : EntitySchema)
  | mapping (m : List (String × EntitySchema))
deriving DecidableEq

def schemaWarning (filename : String) : String :=
  "No entity type specified for file " ++ filename

/-- `C.get_detected_entity_type` (upload_entities.py lines 133–150), with the
logged warnings made explicit in the result. Resolution order follows the
source: when the file name or the configured `DetectedEntityType` is `None`,
fall back to the base class's `SerializableEntity` (lines 31–40) without any
warning; a dictionary is consulted by exact key lookup and a missed lookup
logs a warning and falls back; a single configured type is returned as is. -/
def getDetectedEntityType (detectedEntityType : DetectedEntityTypeArg)
    (entity_filename : Option String) : EntitySchema × List String :=
  match entity_filename, detectedEntityType with
  | none, _ => (.generic, [])
  | some _, .noneArg => (.generic, [])
  | some f, .mapping m =>
    match m.lookup f with
    | some t => (t, [])
    | none => (.generic, [schemaWarning f])
  | some _, .single t => (t, [])

/-! ## Text utilities of the bibliography extractor (scrape_tex.py lines 95–107)

`isSpace` is Python's `\s` restricted to the ASCII whitespace characters
`space`, `\t`, `\n`, `\r`, `\x0b`, `\x0c`. -/

def isSpace (c : Char) : Bool :=
  c == ' ' || c == '\t' || c == '\n' || c == '\r' || c == Char.ofNat 11 || c == Char.ofNat 12

/-- `TEX_BREAK = r"\n\s*?\n"` has a match starting one character into this
list: the tail begins with whitespace-star followed by a newline. -/
def breakTail : List Char → Bool
  | [] => false
  | c :: rest => c == '\n' || (isSpace c && breakTail rest)

/-- `TEX_BREAK` has a match starting at the head of this list. -/
def hasBreakAt : List Char → Bool
  | '\n' :: rest => breakTail rest
  | _ => false

/-- `_contains_break` (scrape_tex.py lines 102–103): `re.search(TEX_BREAK, text)`
succeeds somewhere in the text. -/
def contains_break : List Char → Bool
  | [] => false
  | c :: rest => hasBreakAt (c :: rest) || contains_break rest

/-- `_get_text_before_break` (scrape_tex.py lines 106–107): the prefix of the
text before the leftmost `TEX_BREAK` match, the whole text when there is none. -/
def get_text_before_break : List Char → List Char
  | [] => []
  | c :: rest => if hasBreakAt (c :: rest) then [] else c :: get_text_before_break rest

/-- `re.sub(r"\s+", " ", text)`: each maximal whitespace run becomes one space.
The flag records whether the previous character was inside a whitespace run. -/
def collapseGo : Bool → List Char → List Char
  | _, [] => []
  | inRun, c :: rest =>
    if isSpace c then
      if inRun then collapseGo true rest else ' ' :: collapseGo true rest
    else c :: collapseGo false rest

def collapseWs (l : List Char) : List Char := collapseGo false l

/-- Python's `str.strip()` on the ASCII whitespace alphabet. -/
def stripWs (l : List Char) : List Char :=
  ((l.dropWhile isSpace).reverse.dropWhile isSpace).reverse

/-- `_clean_bibitem_text` (scrape_tex.py lines 98–99). -/
def clean_bibitem_text (l : List Char) : List Char := stripWs (collapseWs l)

/-! ## TexSoup tree model

The parse adapter (TexSoup) is external; the extractor consumes:
- `TexNode`s, whose `expr` may be a `TexCmd` (with a name and arguments) and
  whose `.string` is an optional flattened string;
- `TokenWithPosition` text tokens.
Required arguments (`RArg`) carry their stringified value; every other
argument kind is opaque. -/

inductive TexArg where
  | rarg (value : String)
  | oarg
deriving DecidableEq

structure TexCmd where
  name : String
  args : List TexArg
deriving DecidableEq

inductive Content where
  | node (cmd : Option TexCmd) (str : Option (List Char))
  | token (s : List Char)
deriving DecidableEq

/-- First `RArg` value among the arguments, if any. -/
def first_rarg_value : List TexArg → Option String
  | [] => none
  | .rarg v :: _ => some v
  | .oarg :: rest => first_rarg_value rest

/-- `_extract_label` (scrape_tex.py lines 88–92). -/
def extract_label (bibitem : TexCmd) : Option String :=
  first_rarg_value bibitem.args

/-- The command of a content node when it is a `\bibitem` marker
(the test on scrape_tex.py lines 56–58). -/
def markerCmd : Content → Option TexCmd
  | .node (some cmd) _ => if cmd.name = "bibitem" then some cmd else none
  | _ => none

/-- `content_text` as computed on scrape_tex.py lines 64–68: a `TexNode`'s
`.string` when present, the text of a `TokenWithPosition`, else nothing. -/
def contentTextOf : Content → Option (List Char)
  | .node _ str => str
  | .token s => some s

/-! ## The extractor state machine (scrape_tex.py lines 36–85) -/

/-- `Bibitem` (explanations/types.py lines 35–40). -/
structure Bibitem where
  key : String
  text : List Char
deriving DecidableEq

/-- The mutable fields of `BibitemExtractor`; parent nodes are identified by
a numeric object identity for the `nodes_scanned` set. -/
structure BibitemExtractor where
  current_bibitem_label : Option String
  bibitem_text : List Char
  nodes_scanned : List Nat
  bibitems : List Bibitem
deriving DecidableEq

/-- `BibitemExtractor.__init__` (scrape_tex.py lines 37–41). -/
def initExtractor : BibitemExtractor :=
  { current_bibitem_label := none, bibitem_text := [], nodes_scanned := [], bibitems := [] }

/-- `_finalize_bibitem` (scrape_tex.py lines 78–85). -/
def finalize_bibitem (s : BibitemExtractor) : BibitemExtractor :=
  match s.current_bibitem_label with
  | some label =>
    { s with current_bibitem_label := none, bibitem_text := [],
             bibitems := s.bibitems ++ [⟨label, clean_bibitem_text s.bibitem_text⟩] }
  | none => { s with current_bibitem_label := none, bibitem_text := [] }

/-- `_process_content` (scrape_tex.py lines 55–76). -/
def process_content (s : BibitemExtractor) (content : Content) : BibitemExtractor :=
  match markerCmd content with
  | some cmd =>
    let s₁ := if s.current_bibitem_label.isSome then finalize_bibitem s else s
    { s₁ with current_bibitem_label := extract_label cmd }
  | none =>
    match contentTextOf content with
    | some t =>
      if s.current_bibitem_label.isSome then
        if contains_break t then
          finalize_bibitem { s with bibitem_text := s.bibitem_text ++ get_text_before_break t }
        else
          { s with bibitem_text := s.bibitem_text ++ t }
      else s
    | none => s

/-- One parent node of found `\bibitem` markers: an object identity together
with its direct children in document order. -/
structure TexParent where
  id : Nat
  contents : List Content
deriving DecidableEq

/-- The inner loop of `extract` (scrape_tex.py lines 50–51). -/
def scan_contents (s : BibitemExtractor) (cs : List Content) : BibitemExtractor :=
  cs.foldl process_content s

/-- The outer loop of `extract` (scrape_tex.py lines 46–51): each marker's
parent is scanned the first time it is seen. -/
def scan_parents : BibitemExtractor → List TexParent → BibitemExtractor
  | s, [] => s
  | s, p :: rest =>
    if p.id ∈ s.nodes_scanned then scan_parents s rest
    else
      scan_parents
        (scan_contents { s with nodes_scanned := p.id :: s.nodes_scanned } p.contents) rest

/-- `BibitemExtractor.extract` (scrape_tex.py lines 43–53), applied to the
parents (in discovery order) of the `\bibitem` nodes found in the parsed
document: reset `self.bibitems`, scan, flush the last open item, and return
the collected items together with the post-call object state. -/
def extract (s : BibitemExtractor) (doc : List TexParent) :
    BibitemExtractor × List Bibitem :=
  let s₁ := finalize_bibitem (scan_parents { s with bibitems := [] } doc)
  (s₁, s₁.bibitems)

/-- `extract_bibitems` (scrape_tex.py lines 23–26): construct a fresh
`BibitemExtractor` and run its `extract` method. -/
def extract_bibitems (doc : List TexParent) : List Bibitem :=
  (extract initExtractor doc).2

/-- A sample parsed document used to instantiate theorems at a concrete
input: one parent holding two labelled markers and their entry texts. -/
def sampleDoc : List TexParent :=
  [⟨0, [Content.node (some ⟨"bibitem", [TexArg.rarg "a"]⟩) none,
        Content.token " Alpha text. ".toList,
        Content.node (some ⟨"bibitem", [TexArg.rarg "b"]⟩) none,
        Content.token " Beta text.".toList]⟩]

/-! ## The parse wrapper (scrape_tex.py lines 9–20)

`TexSoup` itself is external: it is passed in as a function from the raw TeX
string to either a parsed document or one of the two exception kinds caught
by `parse_tex`. -/

inductive TexSoupError where
  | typeError (msg : String)
  | eofError (msg : String)
deriving DecidableEq

def TexSoupError.msg : TexSoupError → String
  | .typeError m => m
  | .eofError m => m

structure TexSoupParseError where
  msg : String
deriving DecidableEq

/-- `parse_tex` (scrape_tex.py lines 9–14): a `TypeError` or `EOFError` from
the adapter is re-raised as `TexSoupParseError(str(e))`. -/
def parse_tex (texSoup : String → Except TexSoupError (List TexParent))
    (tex : String) : Except TexSoupParseError (List TexParent) :=
  match texSoup tex with
  | .ok soup => .ok soup
  | .error e => .error ⟨e.msg⟩

/-- The whole pipeline of `extract_bibitems`: parse, then run the extractor;
a parse failure propagates to the caller. -/
def extract_tex (texSoup : String → Except TexSoupError (List TexParent))
    (tex : String) : Except TexSoupParseError (List Bibitem) :=
  match parse_tex texSoup tex with
  | .ok soup => .ok (extract_bibitems soup)
  | .error e => .error e

/-- Two sequential calls of `extract_bibitems` (each constructs its own fresh
`BibitemExtractor`, scrape_tex.py lines 23–26). -/
def call_extract_twice (doc₁ doc₂ : List TexParent) : List Bibitem × List Bibitem :=
  (extract_bibitems doc₁, extract_bibitems doc₂)

def exceptIsOk {ε α : Type} : Except ε α → Bool
  | .ok _ => true
  | .error _ => false

/-! ## Specification-side definitions for the extractor claims -/

/-- The labels of the `\bibitem` markers with a valid (extractable) label,
in the order the markers occur. -/
def valid_labels (cs : List Content) : List String :=
  cs.filterMap fun c => (markerCmd c).bind extract_label

/-- The keys the state machine will still emit when its current label is
`lab` and the remaining content is `cs` (final flush included). -/
def keys_after : Option String → List Content → List String
  | lab, [] => lab.toList
  | lab, c :: rest =>
    match markerCmd c with
    | some cmd => lab.toList ++ keys_after (extract_label cmd) rest
    | none =>
      match contentTextOf c with
      | some t =>
        if lab.isSome && contains_break t then lab.toList ++ keys_after none rest
        else keys_after lab rest
      | none => keys_after lab rest

/-- What the specification asserts of an emitted bibitem text: whitespace runs
are single spaces and there is no leading or trailing whitespace. -/
def CleanedText (l : List Char) : Prop :=
  List.Chain' (fun a b => ¬(isSpace a = true ∧ isSpace b = true)) l ∧
  (∀ c, l.head? = some c → isSpace c = false) ∧
  (∀ c, l.getLast? = some c → isSpace c = false) ∧
  (∀ c ∈ l, isSpace c = true → c = ' ')

/-- Two extractor states that agree on everything except the `nodes_scanned`
bookkeeping set. -/
def SameCore (s t : BibitemExtractor) : Prop :=
  s.current_bibitem_label = t.current_bibitem_label ∧
  s.bibitem_text = t.bibitem_text ∧ s.bibitems = t.bibitems

/-! ## Theorems: text cleaning -/

theorem head?_dropWhile_false (p : Char → Bool) :
    ∀ (l : List Char) (c : Char), (l.dropWhile p).head? = some c → p c = false
  | [], c => by simp [List.dropWhile]
  | a :: rest, c => by
    cases hpa : p a
    · intro h
      rw [List.dropWhile_cons, hpa] at h
      simp at h
      subst h
      exact hpa
    · intro h
      rw [List.dropWhile_cons, hpa] at h
      simp at h
      exact head?_dropWhile_false p rest c h

theorem getLast?_dropWhile_of_ne_nil (p : Char → Bool) :
    ∀ l : List Char, l.dropWhile p ≠ [] → (l.dropWhile p).getLast? = l.getLast?
  | [], h => absurd rfl h
  | a :: rest, h => by
    cases hpa : p a
    · rw [List.dropWhile_cons, hpa]
      simp
    · rw [List.dropWhile_cons, hpa] at h ⊢
      rw [if_pos rfl] at h ⊢
      cases rest with
      | nil => exact absurd rfl h
      | cons b bs =>
        rw [List.getLast?_cons_cons]
        exact getLast?_dropWhile_of_ne_nil p (b :: bs) h

theorem collapseGo_cons_space_false (a : Char) (rest : List Char) (h : isSpace a = true) :
    collapseGo false (a :: rest) = ' ' :: collapseGo true rest := by
  simp [collapseGo, h]

theorem collapseGo_cons_space_true (a : Char) (rest : List Char) (h : isSpace a = true) :
    collapseGo true (a :: rest) = collapseGo true rest := by
  simp [collapseGo, h]

theorem collapseGo_cons_nonspace (b : Bool) (a : Char) (rest : List Char)
    (h : isSpace a = false) :
    collapseGo b (a :: rest) = a :: collapseGo false rest := by
  simp [collapseGo, h]

theorem collapseGo_space_mem : ∀ (b : Bool) (l : List Char) (c : Char),
    c ∈ collapseGo b l → isSpace c = true → c = ' '
  | _, [], c => by simp [collapseGo]
  | b, a :: rest, c => by
    cases hsa : isSpace a
    · rw [collapseGo_cons_nonspace b a rest hsa, List.mem_cons]
      rintro (rfl | hmem) hsc
      · rw [hsc] at hsa
        cases hsa
      · exact collapseGo_space_mem false rest c hmem hsc
    · cases b
      · rw [collapseGo_cons_space_false a rest hsa, List.mem_cons]
        rintro (rfl | hmem) hsc
        · rfl
        · exact collapseGo_space_mem true rest c hmem hsc
      · rw [collapseGo_cons_space_true a rest hsa]
        exact collapseGo_space_mem true rest c

theorem collapseGo_true_head : ∀ (l : List Char) (c : Char),
    (collapseGo true l).head? = some c → isSpace c = false
  | [], c => by simp [collapseGo]
  | a :: rest, c => by
    cases hsa : isSpace a
    · rw [collapseGo_cons_nonspace true a rest hsa, List.head?_cons]
      intro h
      simp at h
      subst h
      exact hsa
    · rw [collapseGo_cons_space_true a rest hsa]
      exact collapseGo_true_head rest c

theorem collapseGo_chain : ∀ (b : Bool) (l : List Char),
    List.Chain' (fun x y => ¬(isSpace x = true ∧ isSpace y = true)) (collapseGo b l)
  | _, [] => by simp [collapseGo]
  | b, a :: rest => by
    cases hsa : isSpace a
    · rw [collapseGo_cons_nonspace b a rest hsa, List.chain'_cons']
      refine ⟨fun y _ => ?_, collapseGo_chain false rest⟩
      simp [hsa]
    · cases b
      · rw [collapseGo_cons_space_false a rest hsa, List.chain'_cons']
        refine ⟨fun y hy => ?_, collapseGo_chain true rest⟩
        have hns := collapseGo_true_head rest y (Option.mem_def.mp hy)
        simp [hns]
      · rw [collapseGo_cons_space_true a rest hsa]
        exact collapseGo_chain true rest

theorem chain'_reverse_of_symm {R : Char → Char → Prop}
    (hsymm : ∀ x y, R x y → R y x) (l : List Char) (h : List.Chain' R l) :
    List.Chain' R l.reverse := by
  rw [List.chain'_reverse]
  exact h.imp fun x y hxy => hsymm x y hxy

/-- `_clean_bibitem_text` establishes the specification's cleanliness
property on every input. -/
theorem clean_bibitem_text_cleaned (l : List Char) :
    CleanedText (clean_bibitem_text l) := by
  have hsymm : ∀ x y : Char, ¬(isSpace x = true ∧ isSpace y = true) →
      ¬(isSpace y = true ∧ isSpace x = true) := fun x y h hc => h ⟨hc.2, hc.1⟩
  have h₀ := collapseGo_chain false l
  refine ⟨?_, ?_, ?_, ?_⟩
  · exact chain'_reverse_of_symm hsymm _
      (((chain'_reverse_of_symm hsymm _
        (h₀.suffix (List.dropWhile_suffix isSpace))).suffix
          (List.dropWhile_suffix isSpace)))
  · intro c hc
    unfold clean_bibitem_text stripWs at hc
    rw [List.head?_reverse] at hc
    have hW : ((collapseWs l).dropWhile isSpace).reverse.dropWhile isSpace ≠ [] := by
      intro he
      rw [he] at hc
      simp at hc
    rw [getLast?_dropWhile_of_ne_nil isSpace _ hW, List.getLast?_reverse] at hc
    exact head?_dropWhile_false isSpace _ c hc
  · intro c hc
    unfold clean_bibitem_text stripWs at hc
    rw [List.getLast?_reverse] at hc
    exact head?_dropWhile_false isSpace _ c hc
  · intro c hc hs
    unfold clean_bibitem_text stripWs at hc
    rw [List.mem_reverse] at hc
    have hc₂ := (List.dropWhile_suffix isSpace).subset hc
    rw [List.mem_reverse] at hc₂
    have hc₃ := (List.dropWhile_suffix isSpace).subset hc₂
    exact collapseGo_space_mem false l c hc₃ hs

/-! ## Theorems: the join -/

theorem matchingLocations_eq_filter {α γ : Type} (e : SerializableEntity α) :
    ∀ locs : List (HueLocationInfo γ),
      matchingLocations e locs =
        locs.filter fun h => decide (h.entity_id = e.id_ ∧ h.tex_path = e.tex_path)
  | [] => rfl
  | h :: rest => by
    simp only [matchingLocations, List.filter_cons]
    by_cases hc : h.entity_id = e.id_ ∧ h.tex_path = e.tex_path
    · simp [hc, matchingLocations_eq_filter e rest]
    · simp [hc, matchingLocations_eq_filter e rest]

theorem matchingLocations_congr {α γ : Type} (e e₂ : SerializableEntity α)
    (hid : e.id_ = e₂.id_) (hpath : e.tex_path = e₂.tex_path) :
    ∀ locs : List (HueLocationInfo γ), matchingLocations e locs = matchingLocations e₂ locs
  | [] => rfl
  | h :: rest => by
    simp only [matchingLocations, hid, hpath]
    rw [matchingLocations_congr e e₂ hid hpath rest]

theorem joinEntities_append {α γ : Type} (es₂ : List (SerializableEntity α))
    (locs : List (HueLocationInfo γ)) :
    ∀ es₁, joinEntities (es₁ ++ es₂) locs = joinEntities es₁ locs ++ joinEntities es₂ locs
  | [] => rfl
  | e :: rest => by
    simp only [List.cons_append, joinEntities]
    exact congrArg _ (joinEntities_append es₂ locs rest)

/-! ## Theorems: extractor state machine -/

theorem finalize_of_some (s : BibitemExtractor) (lab : String)
    (h : s.current_bibitem_label = some lab) :
    finalize_bibitem s =
      { s with current_bibitem_label := none, bibitem_text := [],
               bibitems := s.bibitems ++ [⟨lab, clean_bibitem_text s.bibitem_text⟩] } := by
  unfold finalize_bibitem
  rw [h]

theorem finalize_of_none (s : BibitemExtractor) (h : s.current_bibitem_label = none) :
    finalize_bibitem s = { s with current_bibitem_label := none, bibitem_text := [] } := by
  unfold finalize_bibitem
  rw [h]

theorem finalize_nodes (s : BibitemExtractor) :
    (finalize_bibitem s).nodes_scanned = s.nodes_scanned := by
  unfold finalize_bibitem
  split <;> rfl

theorem process_marker_none (s : BibitemExtractor) (cmd : TexCmd) (c : Content)
    (hm : markerCmd c = some cmd) (hl : s.current_bibitem_label = none) :
    process_content s c = { s with current_bibitem_label := extract_label cmd } := by
  unfold process_content
  rw [hm, hl]
  rfl

theorem process_marker_some (s : BibitemExtractor) (cmd : TexCmd) (c : Content)
    (lab : String) (hm : markerCmd c = some cmd)
    (hl : s.current_bibitem_label = some lab) :
    process_content s c =
      { s with current_bibitem_label := extract_label cmd, bibitem_text := [],
               bibitems := s.bibitems ++ [⟨lab, clean_bibitem_text s.bibitem_text⟩] } := by
  unfold process_content
  rw [hm, hl, finalize_of_some s lab hl]
  rfl

theorem process_no_text (s : BibitemExtractor) (c : Content)
    (hm : markerCmd c = none) (ht : contentTextOf c = none) :
    process_content s c = s := by
  unfold process_content
  rw [hm, ht]

theorem process_text_some (s : BibitemExtractor) (c : Content) (lab : String)
    (txt : List Char) (hm : markerCmd c = none) (ht : contentTextOf c = some txt)
    (hl : s.current_bibitem_label = some lab) :
    process_content s c =
      if contains_break txt then
        finalize_bibitem { s with bibitem_text := s.bibitem_text ++ get_text_before_break txt }
      else { s with bibitem_text := s.bibitem_text ++ txt } := by
  unfold process_content
  rw [hm, ht, hl]
  rfl

theorem process_text_nobreak (s : BibitemExtractor) (c : Content) (lab : String)
    (txt : List Char) (hm : markerCmd c = none) (ht : contentTextOf c = some txt)
    (hl : s.current_bibitem_label = some lab) (hb : contains_break txt = false) :
    process_content s c = { s with bibitem_text := s.bibitem_text ++ txt } := by
  rw [process_text_some s c lab txt hm ht hl, hb]
  rfl

theorem process_text_break (s : BibitemExtractor) (c : Content) (lab : String)
    (txt : List Char) (hm : markerCmd c = none) (ht : contentTextOf c = some txt)
    (hl : s.current_bibitem_label = some lab) (hb : contains_break txt = true) :
    process_content s c =
      finalize_bibitem { s with bibitem_text := s.bibitem_text ++ get_text_before_break txt } := by
  rw [process_text_some s c lab txt hm ht hl, hb]
  rfl

theorem process_no_label (s : BibitemExtractor) (c : Content)
    (hl : s.current_bibitem_label = none) (hm : markerCmd c = none) :
    process_content s c = s := by
  unfold process_content
  rw [hm]
  cases ht : contentTextOf c
  · rfl
  · rw [hl]
    rfl

theorem process_nodes (s : BibitemExtractor) (c : Content) :
    (process_content s c).nodes_scanned = s.nodes_scanned := by
  unfold process_content
  split
  · split
    · exact finalize_nodes _
    · rfl
  · split
    · split
      · split
        · exact finalize_nodes _
        · rfl
      · rfl
    · rfl

theorem finalize_sameCore {s t : BibitemExtractor} (h : SameCore s t) :
    SameCore (finalize_bibitem s) (finalize_bibitem t) := by
  obtain ⟨h₁, h₂, h₃⟩ := h
  unfold finalize_bibitem
  rw [h₁]
  cases t.current_bibitem_label with
  | none => exact ⟨rfl, rfl, h₃⟩
  | some lab => exact ⟨rfl, rfl, by rw [h₂, h₃]⟩

theorem process_sameCore {s t : BibitemExtractor} (c : Content) (h : SameCore s t) :
    SameCore (process_content s c) (process_content t c) := by
  obtain ⟨h₁, h₂, h₃⟩ := h
  cases hm : markerCmd c with
  | some cmd =>
    cases hlt : t.current_bibitem_label with
    | none =>
      rw [process_marker_none s cmd c hm (h₁.trans hlt),
          process_marker_none t cmd c hm hlt]
      exact ⟨rfl, h₂, h₃⟩
    | some lab =>
      rw [process_marker_some s cmd c lab hm (h₁.trans hlt),
          process_marker_some t cmd c lab hm hlt]
      exact ⟨rfl, rfl, by rw [h₂, h₃]⟩
  | none =>
    cases ht : contentTextOf c with
    | none =>
      rw [process_no_text s c hm ht, process_no_text t c hm ht]
      exact ⟨h₁, h₂, h₃⟩
    | some txt =>
      cases hlt : t.current_bibitem_label with
      | none =>
        rw [process_no_label s c (h₁.trans hlt) hm, process_no_label t c hlt hm]
        exact ⟨h₁, h₂, h₃⟩
      | some lab =>
        cases hb : contains_break txt with
        | false =>
          rw [process_text_nobreak s c lab txt hm ht (h₁.trans hlt) hb,
              process_text_nobreak t c lab txt hm ht hlt hb]
          exact ⟨h₁, by rw [h₂], h₃⟩
        | true =>
          rw [process_text_break s c lab txt hm ht (h₁.trans hlt) hb,
              process_text_break t c lab txt hm ht hlt hb]
          exact finalize_sameCore ⟨h₁, by rw [h₂], h₃⟩

theorem sameCore_trans {s t u : BibitemExtractor}
    (h₁ : SameCore s t) (h₂ : SameCore t u) : SameCore s u :=
  ⟨h₁.1.trans h₂.1, h₁.2.1.trans h₂.2.1, h₁.2.2.trans h₂.2.2⟩

theorem scan_contents_sameCore : ∀ (cs : List Content) {s t : BibitemExtractor},
    SameCore s t → SameCore (scan_contents s cs) (scan_contents t cs)
  | [], _, _, h => h
  | c :: rest, _, _, h => scan_contents_sameCore rest (process_sameCore c h)

theorem scan_contents_nodes : ∀ (cs : List Content) (s : BibitemExtractor),
    (scan_contents s cs).nodes_scanned = s.nodes_scanned
  | [], _ => rfl
  | c :: rest, s => (scan_contents_nodes rest _).trans (process_nodes s c)

theorem scan_contents_append (s : BibitemExtractor) (A B : List Content) :
    scan_contents s (A ++ B) = scan_contents (scan_contents s A) B := by
  unfold scan_contents
  rw [List.foldl_append]

theorem scan_no_marker : ∀ (cs : List Content) (s : BibitemExtractor),
    s.current_bibitem_label = none → (∀ c ∈ cs, markerCmd c = none) →
    scan_contents s cs = s
  | [], _, _, _ => rfl
  | c :: rest, s, hl, hm => by
    have h₁ : process_content s c = s :=
      process_no_label s c hl (hm c (List.mem_cons_self c rest))
    show scan_contents (process_content s c) rest = s
    rw [h₁]
    exact scan_no_marker rest s hl fun c₂ hc₂ => hm c₂ (List.mem_cons_of_mem c hc₂)

/-- On a document whose distinct parents are listed once each (distinct
object identities), the parent loop of `extract` behaves — up to the
`nodes_scanned` bookkeeping — like one scan over the concatenated children. -/
theorem scan_parents_core : ∀ (doc : List TexParent) (s : BibitemExtractor),
    (doc.map TexParent.id).Nodup → (∀ p ∈ doc, p.id ∉ s.nodes_scanned) →
    SameCore (scan_parents s doc)
      (scan_contents s (doc.map TexParent.contents).flatten)
  | [], _, _, _ => ⟨rfl, rfl, rfl⟩
  | p :: rest, s, hnd, hfresh => by
    have hp : p.id ∉ s.nodes_scanned := hfresh p (List.mem_cons_self p rest)
    rw [List.map_cons, List.nodup_cons] at hnd
    obtain ⟨hhead, hnd₂⟩ := hnd
    simp only [scan_parents]
    rw [if_neg hp]
    have hns₂ :
        (scan_contents { s with nodes_scanned := p.id :: s.nodes_scanned }
          p.contents).nodes_scanned = p.id :: s.nodes_scanned :=
      scan_contents_nodes p.contents _
    have hfresh₂ : ∀ q ∈ rest, q.id ∉
        (scan_contents { s with nodes_scanned := p.id :: s.nodes_scanned }
          p.contents).nodes_scanned := by
      intro q hq
      rw [hns₂]
      intro hmem
      rcases List.mem_cons.mp hmem with heq | hmem₂
      · exact hhead (heq ▸ List.mem_map_of_mem TexParent.id hq)
      · exact hfresh q (List.mem_cons_of_mem p hq) hmem₂
    have hIH := scan_parents_core rest _ hnd₂ hfresh₂
    have hcore₂ : SameCore
        (scan_contents { s with nodes_scanned := p.id :: s.nodes_scanned } p.contents)
        (scan_contents s p.contents) :=
      scan_contents_sameCore p.contents ⟨rfl, rfl, rfl⟩
    have h₃ := scan_contents_sameCore (rest.map TexParent.contents).flatten hcore₂
    have h₄ := sameCore_trans hIH h₃
    rw [← scan_contents_append] at h₄
    simpa using h₄

theorem valid_labels_cons (c : Content) (rest : List Content) :
    valid_labels (c :: rest) =
      ((markerCmd c).bind extract_label).toList ++ valid_labels rest := by
  unfold valid_labels
  rw [List.filterMap_cons]
  cases h : (markerCmd c).bind extract_label <;> simp [h]

theorem keys_after_cons (lab : Option String) (c : Content) (rest : List Content) :
    keys_after lab (c :: rest) =
      match markerCmd c with
      | some cmd => lab.toList ++ keys_after (extract_label cmd) rest
      | none =>
        match contentTextOf c with
        | some t =>
          if lab.isSome && contains_break t then lab.toList ++ keys_after none rest
          else keys_after lab rest
        | none => keys_after lab rest := rfl

theorem keys_after_marker (lab : Option String) (c : Content) (rest : List Content)
    (cmd : TexCmd) (hm : markerCmd c = some cmd) :
    keys_after lab (c :: rest) = lab.toList ++ keys_after (extract_label cmd) rest := by
  rw [keys_after_cons, hm]

theorem keys_after_text (lab : Option String) (c : Content) (rest : List Content)
    (txt : List Char) (hm : markerCmd c = none) (ht : contentTextOf c = some txt) :
    keys_after lab (c :: rest) =
      if lab.isSome && contains_break txt then lab.toList ++ keys_after none rest
      else keys_after lab rest := by
  rw [keys_after_cons, hm, ht]

theorem keys_after_no_text (lab : Option String) (c : Content) (rest : List Content)
    (hm : markerCmd c = none) (ht : contentTextOf c = none) :
    keys_after lab (c :: rest) = keys_after lab rest := by
  rw [keys_after_cons, hm, ht]

theorem keys_after_eq : ∀ (cs : List Content) (lab : Option String),
    keys_after lab cs = lab.toList ++ valid_labels cs
  | [], lab => by simp [keys_after, valid_labels]
  | c :: rest, lab => by
    rw [valid_labels_cons]
    cases hm : markerCmd c with
    | some cmd =>
      rw [keys_after_marker lab c rest cmd hm, keys_after_eq rest (extract_label cmd),
          Option.some_bind]
    | none =>
      rw [Option.none_bind]
      simp only [Option.toList_none, List.nil_append]
      cases ht : contentTextOf c with
      | none =>
        rw [keys_after_no_text lab c rest hm ht]
        exact keys_after_eq rest lab
      | some txt =>
        rw [keys_after_text lab c rest txt hm ht]
        by_cases hcond : (lab.isSome && contains_break txt) = true
        · rw [if_pos hcond, keys_after_eq rest none]
          simp
        · rw [if_neg hcond]
          exact keys_after_eq rest lab

/-- The keys emitted by a scan over `cs` followed by the final flush: the
already-emitted keys, then `keys_after` of the current label. -/
theorem finalize_scan_keys : ∀ (cs : List Content) (s : BibitemExtractor),
    ((finalize_bibitem (scan_contents s cs)).bibitems).map Bibitem.key
      = s.bibitems.map Bibitem.key ++ keys_after s.current_bibitem_label cs
  | [], s => by
    cases hl : s.current_bibitem_label with
    | none =>
      rw [show scan_contents s [] = s from rfl, finalize_of_none s hl]
      simp [keys_after, hl]
    | some lab =>
      rw [show scan_contents s [] = s from rfl, finalize_of_some s lab hl]
      simp [keys_after, hl]
  | c :: cs, s => by
    rw [show scan_contents s (c :: cs) = scan_contents (process_content s c) cs from rfl,
        finalize_scan_keys cs (process_content s c)]
    cases hm : markerCmd c with
    | some cmd =>
      rw [keys_after_marker s.current_bibitem_label c cs cmd hm]
      cases hl : s.current_bibitem_label with
      | none =>
        rw [process_marker_none s cmd c hm hl]
        simp [hl]
      | some lab =>
        rw [process_marker_some s cmd c lab hm hl]
        simp [hl]
    | none =>
      cases ht : contentTextOf c with
      | none =>
        rw [process_no_text s c hm ht, keys_after_no_text s.current_bibitem_label c cs hm ht]
      | some txt =>
        rw [keys_after_text s.current_bibitem_label c cs txt hm ht]
        cases hl : s.current_bibitem_label with
        | none =>
          rw [process_no_label s c hl hm]
          simp [hl]
        | some lab =>
          cases hb : contains_break txt with
          | false =>
            rw [process_text_nobreak s c lab txt hm ht hl hb]
            simp [hl, hb]
          | true =>
            rw [process_text_break s c lab txt hm ht hl hb,
                finalize_of_some
                  { s with bibitem_text := s.bibitem_text ++ get_text_before_break txt }
                  lab hl]
            simp [hl, hb]

theorem clean_finalize {s : BibitemExtractor}
    (h : ∀ b ∈ s.bibitems, CleanedText b.text) :
    ∀ b ∈ (finalize_bibitem s).bibitems, CleanedText b.text := by
  cases hl : s.current_bibitem_label with
  | none =>
    rw [finalize_of_none s hl]
    exact h
  | some lab =>
    rw [finalize_of_some s lab hl]
    intro b hb
    rcases List.mem_append.mp hb with hb₂ | hb₂
    · exact h b hb₂
    · rw [List.mem_singleton.mp hb₂]
      exact clean_bibitem_text_cleaned _

theorem clean_process {s : BibitemExtractor} (c : Content)
    (h : ∀ b ∈ s.bibitems, CleanedText b.text) :
    ∀ b ∈ (process_content s c).bibitems, CleanedText b.text := by
  cases hm : markerCmd c with
  | some cmd =>
    cases hl : s.current_bibitem_label with
    | none =>
      rw [process_marker_none s cmd c hm hl]
      exact h
    | some lab =>
      rw [process_marker_some s cmd c lab hm hl]
      intro b hb
      rcases List.mem_append.mp hb with hb₂ | hb₂
      · exact h b hb₂
      · rw [List.mem_singleton.mp hb₂]
        exact clean_bibitem_text_cleaned _
  | none =>
    cases ht : contentTextOf c with
    | none =>
      rw [process_no_text s c hm ht]
      exact h
    | some txt =>
      cases hl : s.current_bibitem_label with
      | none =>
        rw [process_no_label s c hl hm]
        exact h
      | some lab =>
        cases hb : contains_break txt with
        | false =>
          rw [process_text_nobreak s c lab txt hm ht hl hb]
          exact h
        | true =>
          rw [process_text_break s c lab txt hm ht hl hb]
          exact clean_finalize h

theorem clean_scan_contents : ∀ (cs : List Content) (s : BibitemExtractor),
    (∀ b ∈ s.bibitems, CleanedText b.text) →
    ∀ b ∈ (scan_contents s cs).bibitems, CleanedText b.text
  | [], _, h => h
  | c :: rest, s, h => clean_scan_contents rest (process_content s c) (clean_process c h)

theorem clean_scan_parents : ∀ (doc : List TexParent) (s : BibitemExtractor),
    (∀ b ∈ s.bibitems, CleanedText b.text) →
    ∀ b ∈ (scan_parents s doc).bibitems, CleanedText b.text
  | [], _, h => h
  | p :: rest, s, h => by
    simp only [scan_parents]
    by_cases hp : p.id ∈ s.nodes_scanned
    · rw [if_pos hp]
      exact clean_scan_parents rest s h
    · rw [if_neg hp]
      exact clean_scan_parents rest _ (clean_scan_contents p.contents _ h)

/-- While no label is active, scanning content that contains no marker with
an extractable label leaves the emitted items, the (absent) label, and the
buffer unchanged. -/
theorem scan_no_valid_label : ∀ (cs : List Content) (s : BibitemExtractor),
    s.current_bibitem_label = none →
    (∀ c ∈ cs, ∀ cmd, markerCmd c = some cmd → extract_label cmd = none) →
    (scan_contents s cs).bibitems = s.bibitems ∧
    (scan_contents s cs).current_bibitem_label = none ∧
    (scan_contents s cs).bibitem_text = s.bibitem_text
  | [], _, hl, _ => ⟨rfl, hl, rfl⟩
  | c :: rest, s, hl, hv => by
    have hrest : ∀ c₂ ∈ rest, ∀ cmd, markerCmd c₂ = some cmd → extract_label cmd = none :=
      fun c₂ hc₂ => hv c₂ (List.mem_cons_of_mem c hc₂)
    cases hm : markerCmd c with
    | none =>
      rw [show scan_contents s (c :: rest) = scan_contents (process_content s c) rest from rfl,
          process_no_label s c hl hm]
      exact scan_no_valid_label rest s hl hrest
    | some cmd =>
      have hcmd : extract_label cmd = none := hv c (List.mem_cons_self c rest) cmd hm
      rw [show scan_contents s (c :: rest) = scan_contents (process_content s c) rest from rfl,
          process_marker_none s cmd c hm hl, hcmd]
      exact scan_no_valid_label rest _ rfl hrest

theorem finalize_text (s : BibitemExtractor) :
    (finalize_bibitem s).bibitem_text = [] := by
  cases hl : s.current_bibitem_label with
  | none => rw [finalize_of_none s hl]
  | some lab => rw [finalize_of_some s lab hl]

/-- The machine's reachability invariant: whenever no label is active, the
buffer is empty. It is preserved by every step (text is only appended under
an active label, and finalize always clears the buffer). -/
theorem buffer_inv_process (s : BibitemExtractor) (c : Content)
    (hinv : s.current_bibitem_label = none → s.bibitem_text = []) :
    (process_content s c).current_bibitem_label = none →
      (process_content s c).bibitem_text = [] := by
  cases hm : markerCmd c with
  | some cmd =>
    cases hl : s.current_bibitem_label with
    | none =>
      rw [process_marker_none s cmd c hm hl]
      intro _
      exact hinv hl
    | some lab =>
      rw [process_marker_some s cmd c lab hm hl]
      intro _
      rfl
  | none =>
    cases ht : contentTextOf c with
    | none =>
      rw [process_no_text s c hm ht]
      exact hinv
    | some txt =>
      cases hl : s.current_bibitem_label with
      | none =>
        rw [process_no_label s c hl hm]
        exact hinv
      | some lab =>
        cases hb : contains_break txt with
        | false =>
          rw [process_text_nobreak s c lab txt hm ht hl hb]
          intro h
          exact Option.noConfusion (hl.symm.trans h)
        | true =>
          rw [process_text_break s c lab txt hm ht hl hb]
          intro _
          exact finalize_text _

theorem buffer_inv_scan_contents : ∀ (cs : List Content) (s : BibitemExtractor),
    (s.current_bibitem_label = none → s.bibitem_text = []) →
    (scan_contents s cs).current_bibitem_label = none →
      (scan_contents s cs).bibitem_text = []
  | [], _, hinv => hinv
  | c :: rest, s, hinv =>
    buffer_inv_scan_contents rest (process_content s c) (buffer_inv_process s c hinv)

/-- Every state the parent loop of `extract` reaches satisfies the buffer
invariant (in particular all states downstream of `initExtractor`, whose
label is absent and whose buffer is empty). -/
theorem buffer_inv_scan_parents : ∀ (doc : List TexParent) (s : BibitemExtractor),
    (s.current_bibitem_label = none → s.bibitem_text = []) →
    (scan_parents s doc).current_bibitem_label = none →
      (scan_parents s doc).bibitem_text = []
  | [], _, hinv => hinv
  | p :: rest, s, hinv => by
    simp only [scan_parents]
    by_cases hp : p.id ∈ s.nodes_scanned
    · rw [if_pos hp]
      exact buffer_inv_scan_parents rest s hinv
    · rw [if_neg hp]
      exact buffer_inv_scan_parents rest _ (buffer_inv_scan_contents p.contents _ hinv)

/-! ## Theorems for the claims -/

/-- C1: `join` produces exactly one `LocalizedEntity` per input entity, in the
input entity order (none dropped, none duplicated), and each entity's
locations are exactly the location records whose `(entity_id, source_path)`
matches the entity's `(id, source_path)`, in input location order; zero
matches give an empty list. `joinSpec` is the specification's wording. -/
theorem join_one_localized_entity_per_entity {α γ : Type}
    (es : List (SerializableEntity α)) (ls : List (HueLocationInfo γ)) :
    joinEntities es ls = joinSpec es ls ∧
    (joinEntities es ls).map EntityAndLocation.entity = es := by
  have hspec : ∀ es₀ : List (SerializableEntity α), joinEntities es₀ ls = joinSpec es₀ ls := by
    intro es₀
    induction es₀ with
    | nil => rfl
    | cons e rest ih =>
      simp only [joinEntities, joinSpec, List.map_cons, ih, matchingLocations_eq_filter]
  have hmap : ∀ es₀ : List (SerializableEntity α),
      (joinEntities es₀ ls).map EntityAndLocation.entity = es₀ := by
    intro es₀
    induction es₀ with
    | nil => rfl
    | cons e rest ih => simp [joinEntities, ih]
  exact ⟨hspec es, hmap es⟩

/-- C10: `join` performs no deduplication: two input entities with the same
`(id, source_path)` pair both appear in the output, in input order, and each
is paired with the same complete list of matching locations. -/
theorem join_no_dedup {α γ : Type} (es₁ es₂ es₃ : List (SerializableEntity α))
    (e e₂ : SerializableEntity α) (ls : List (HueLocationInfo γ))
    (hid : e.id_ = e₂.id_) (hpath : e.tex_path = e₂.tex_path) :
    joinEntities (es₁ ++ e :: es₂ ++ e₂ :: es₃) ls =
      joinEntities es₁ ls ++ ⟨e, matchingLocations e ls⟩ ::
        (joinEntities es₂ ls ++ ⟨e₂, matchingLocations e ls⟩ :: joinEntities es₃ ls) := by
  rw [List.append_assoc, joinEntities_append _ ls es₁, List.cons_append]
  simp only [joinEntities, joinEntities_append _ ls es₂]
  rw [← matchingLocations_congr e e₂ hid hpath ls]

theorem join_no_dedup_witness :
    joinEntities ((⟨"e1", "p.tex", ()⟩ : SerializableEntity Unit) :: ⟨"e1", "p.tex", ()⟩ :: [])
        [(⟨"e1", "p.tex", 0⟩ : HueLocationInfo Nat), ⟨"e1", "q.tex", 1⟩] =
      [⟨⟨"e1", "p.tex", ()⟩, [⟨"e1", "p.tex", 0⟩]⟩,
       ⟨⟨"e1", "p.tex", ()⟩, [⟨"e1", "p.tex", 0⟩]⟩] := by
  have h := join_no_dedup [] [] [] (⟨"e1", "p.tex", ()⟩ : SerializableEntity Unit)
      ⟨"e1", "p.tex", ()⟩ [(⟨"e1", "p.tex", 0⟩ : HueLocationInfo Nat), ⟨"e1", "q.tex", 1⟩]
      rfl rfl
  simpa using h

/-- C5 counterexample: when no `DetectedEntityType` mapping is supplied at all,
`get_detected_entity_type` falls back to the generic schema but records NO
warning (upload_entities.py lines 137–138 return the base-class default
without logging), so the claim's "a warning is recorded" fails in this
degraded case. -/
theorem schema_no_mapping_no_warning :
    (getDetectedEntityType .noneArg (some "entities.csv")).1 = .generic ∧
    (getDetectedEntityType .noneArg (some "entities.csv")).2 = [] :=
  ⟨rfl, rfl⟩

/-- C5 amended: schema resolution is an exact file-name lookup in the supplied
mapping; a file name absent from the mapping falls back to the generic schema
WITH a warning, while a wholly absent mapping falls back to the generic schema
SILENTLY; neither case is fatal (a schema is always returned). -/
theorem schema_resolution_amended (f : String) (m : List (String × EntitySchema))
    (t : EntitySchema) :
    (m.lookup f = some t → getDetectedEntityType (.mapping m) (some f) = (t, [])) ∧
    (m.lookup f = none →
      getDetectedEntityType (.mapping m) (some f) = (.generic, [schemaWarning f])) ∧
    getDetectedEntityType .noneArg (some f) = (.generic, []) := by
  refine ⟨fun h => ?_, fun h => ?_, rfl⟩ <;> simp [getDetectedEntityType, h]

theorem schema_resolution_amended_witness :
    getDetectedEntityType (.mapping [("entities-terms.csv", .specific "Term")])
        (some "entities-terms.csv") = (.specific "Term", []) ∧
    getDetectedEntityType (.mapping [("entities-terms.csv", .specific "Term")])
        (some "entities.csv") = (.generic, [schemaWarning "entities.csv"]) := by
  have h₁ := (schema_resolution_amended "entities-terms.csv"
      [("entities-terms.csv", .specific "Term")] (.specific "Term")).1
  have h₂ := (schema_resolution_amended "entities.csv"
      [("entities-terms.csv", .specific "Term")] (.specific "Term")).2.1
  exact ⟨h₁ rfl, h₂ rfl⟩

/-- C6: `extract` called twice on the same text gives identical output, and
`join` called twice on the same inputs gives identical output. In this
embedding `extract_bibitems` builds a fresh `BibitemExtractor` per call
(scrape_tex.py lines 23–26), so no state flows between the two calls; the
final conjunct checks in addition that `extract` itself is insensitive to a
stale `bibitems` field because the method resets it on entry (line 44). -/
theorem extract_and_join_stateless {α γ : Type} (doc : List TexParent)
    (es : List (SerializableEntity α)) (ls : List (HueLocationInfo γ)) :
    (call_extract_twice doc doc).1 = (call_extract_twice doc doc).2 ∧
    joinEntities es ls = joinEntities es ls ∧
    ∀ (s : BibitemExtractor) (b : List Bibitem),
      (extract { s with bibitems := b } doc).2 = (extract s doc).2 :=
  ⟨rfl, rfl, fun _ _ => rfl⟩

/-- C7: the extraction pipeline fails exactly when the parse adapter fails; an
adapter failure is wrapped into a `TexSoupParseError` carrying the adapter's
message (scrape_tex.py lines 9–14), and is the entire result for that
document (no bibitems); an adapter success yields the extractor's output. -/
theorem extract_wraps_adapter_failure
    (texSoup : String → Except TexSoupError (List TexParent)) (tex : String) :
    (exceptIsOk (extract_tex texSoup tex) = exceptIsOk (texSoup tex)) ∧
    (∀ e, texSoup tex = .error e → extract_tex texSoup tex = .error ⟨e.msg⟩) ∧
    (∀ soup, texSoup tex = .ok soup →
      extract_tex texSoup tex = .ok (extract_bibitems soup)) := by
  refine ⟨?_, fun e h => ?_, fun soup h => ?_⟩
  · cases h : texSoup tex <;> simp [extract_tex, parse_tex, h, exceptIsOk]
  · simp [extract_tex, parse_tex, h]
  · simp [extract_tex, parse_tex, h]

theorem extract_wraps_adapter_failure_witness :
    extract_tex (fun _ => .error (.eofError "unexpected EOF")) "\\bibitem oops" =
      .error ⟨"unexpected EOF"⟩ :=
  (extract_wraps_adapter_failure (fun _ => .error (.eofError "unexpected EOF"))
    "\\bibitem oops").2.1 (.eofError "unexpected EOF") rfl

theorem extract_label_eq_first_rarg :
    ∀ args : List TexArg,
      first_rarg_value args =
        (args.filterMap fun a => match a with
          | .rarg v => some v | .oarg => none).head?
  | [] => rfl
  | .rarg _ :: _ => rfl
  | .oarg :: rest => extract_label_eq_first_rarg rest

/-- C2: on a parsed document with distinct parents, `extract` emits exactly
one `Bibitem` per marker with a valid label, keyed by those labels in
document order, and every emitted text is whitespace-normalized (runs
collapsed to single spaces, no leading or trailing whitespace). -/
theorem extract_one_bibitem_per_valid_marker (doc : List TexParent)
    (hnodup : (doc.map TexParent.id).Nodup) :
    (extract_bibitems doc).map Bibitem.key =
      valid_labels (doc.map TexParent.contents).flatten ∧
    ∀ b ∈ extract_bibitems doc, CleanedText b.text := by
  have hinit : extract_bibitems doc =
      (finalize_bibitem (scan_parents initExtractor doc)).bibitems := rfl
  constructor
  · rw [hinit]
    have hcore := scan_parents_core doc initExtractor hnodup
      (by intro p hp; simp [initExtractor])
    have hfin := finalize_sameCore hcore
    rw [hfin.2.2, finalize_scan_keys, keys_after_eq]
    simp [initExtractor]
  · rw [hinit]
    refine clean_finalize (clean_scan_parents doc initExtractor ?_)
    intro b hb
    simp [initExtractor] at hb

theorem extract_one_bibitem_per_valid_marker_witness :
    (extract_bibitems sampleDoc).map Bibitem.key =
      valid_labels (sampleDoc.map TexParent.contents).flatten ∧
    ∀ b ∈ extract_bibitems sampleDoc, CleanedText b.text :=
  extract_one_bibitem_per_valid_marker sampleDoc (by simp [sampleDoc])

/-- C3: while an item is open, a text fragment containing a paragraph break
contributes only its part before the first break; the item is finalized at
once, and nothing after the break — neither the rest of the fragment nor any
later marker-free text — reaches any `Bibitem`. -/
theorem break_truncates_and_finalizes (s : BibitemExtractor) (lab : String)
    (t : List Char) (c : Content) (cs : List Content)
    (hl : s.current_bibitem_label = some lab)
    (hm : markerCmd c = none) (ht : contentTextOf c = some t)
    (hb : contains_break t = true)
    (hcs : ∀ c₂ ∈ cs, markerCmd c₂ = none) :
    (finalize_bibitem (scan_contents s (c :: cs))).bibitems =
      s.bibitems ++
        [⟨lab, clean_bibitem_text (s.bibitem_text ++ get_text_before_break t)⟩] := by
  have hX : scan_contents s (c :: cs) =
      { s with current_bibitem_label := none, bibitem_text := [],
               bibitems := s.bibitems ++
                 [⟨lab, clean_bibitem_text (s.bibitem_text ++ get_text_before_break t)⟩] } := by
    rw [show scan_contents s (c :: cs) = scan_contents (process_content s c) cs from rfl,
        process_text_break s c lab t hm ht hl hb,
        finalize_of_some
          { s with bibitem_text := s.bibitem_text ++ get_text_before_break t } lab hl]
    exact scan_no_marker cs _ rfl hcs
  rw [hX, finalize_of_none _ rfl]

theorem break_truncates_and_finalizes_witness :
    (finalize_bibitem (scan_contents ⟨some "a", [], [], []⟩
        [Content.token " X\n\nY".toList, Content.token "Z".toList])).bibitems =
      [] ++ [⟨"a", clean_bibitem_text ([] ++ get_text_before_break " X\n\nY".toList)⟩] :=
  break_truncates_and_finalizes ⟨some "a", [], [], []⟩ "a" (" X\n\nY".toList)
    (Content.token " X\n\nY".toList) [Content.token "Z".toList]
    rfl rfl rfl (by decide) (by decide)

/-- C4: a marker whose label cannot be extracted closes any open item, sets
the current label to absent, contributes no `Bibitem` itself, and all
marker-free content after it is dropped (the buffer does not grow while no
label is active). -/
theorem unlabeled_marker_drops_text (s : BibitemExtractor) (cmd : TexCmd)
    (c : Content) (cs : List Content)
    (hm : markerCmd c = some cmd) (hlab : extract_label cmd = none)
    (hcs : ∀ c₂ ∈ cs, ∀ cmd₂, markerCmd c₂ = some cmd₂ → extract_label cmd₂ = none) :
    ((finalize_bibitem (scan_contents s (c :: cs))).bibitems =
      s.bibitems ++ (match s.current_bibitem_label with
        | some lab => [⟨lab, clean_bibitem_text s.bibitem_text⟩]
        | none => [])) ∧
    (scan_contents s (c :: cs)).current_bibitem_label = none ∧
    (scan_contents s (c :: cs)).bibitem_text = (process_content s c).bibitem_text := by
  have hnone : (process_content s c).current_bibitem_label = none := by
    cases hl : s.current_bibitem_label with
    | none => rw [process_marker_none s cmd c hm hl]; exact hlab
    | some lab => rw [process_marker_some s cmd c lab hm hl]; exact hlab
  have hstep : scan_contents s (c :: cs) = scan_contents (process_content s c) cs := rfl
  obtain ⟨hr₁, hr₂, hr₃⟩ := scan_no_valid_label cs (process_content s c) hnone hcs
  refine ⟨?_, ?_, ?_⟩
  · rw [hstep, finalize_of_none _ hr₂]
    show (scan_contents (process_content s c) cs).bibitems = _
    rw [hr₁]
    cases hl : s.current_bibitem_label with
    | none =>
      rw [process_marker_none s cmd c hm hl]
      simp
    | some lab =>
      rw [process_marker_some s cmd c lab hm hl]
  · rw [hstep]
    exact hr₂
  · rw [hstep]
    exact hr₃

theorem unlabeled_marker_drops_text_witness :
    ((finalize_bibitem (scan_contents ⟨none, [], [], []⟩
        [Content.node (some ⟨"bibitem", [TexArg.oarg]⟩) none,
         Content.token "lost".toList])).bibitems =
      [] ++ (match (none : Option String) with
        | some lab => [⟨lab, clean_bibitem_text []⟩]
        | none => [])) ∧
    (scan_contents ⟨none, [], [], []⟩
        [Content.node (some ⟨"bibitem", [TexArg.oarg]⟩) none,
         Content.token "lost".toList]).current_bibitem_label = none ∧
    (scan_contents ⟨none, [], [], []⟩
        [Content.node (some ⟨"bibitem", [TexArg.oarg]⟩) none,
         Content.token "lost".toList]).bibitem_text =
      (process_content ⟨none, [], [], []⟩
        (Content.node (some ⟨"bibitem", [TexArg.oarg]⟩) none)).bibitem_text :=
  unlabeled_marker_drops_text ⟨none, [], [], []⟩ ⟨"bibitem", [TexArg.oarg]⟩
    (Content.node (some ⟨"bibitem", [TexArg.oarg]⟩) none)
    [Content.token "lost".toList] (by decide) rfl
    (by
      intro c₂ hc₂ cmd₂ hcmd
      simp only [List.mem_singleton] at hc₂
      subst hc₂
      simp [markerCmd] at hcmd)

/-- C8: a marker's new label is the value of the node's first required
(`RArg`) argument, and absent when no required argument exists — expressed
as the head of the required-argument values in order. -/
theorem marker_label_first_rarg (s : BibitemExtractor) (cmd : TexCmd) (c : Content)
    (hm : markerCmd c = some cmd) :
    (process_content s c).current_bibitem_label =
      (cmd.args.filterMap fun a => match a with
        | .rarg v => some v | .oarg => none).head? := by
  have hfin : (process_content s c).current_bibitem_label = extract_label cmd := by
    cases hl : s.current_bibitem_label with
    | none => rw [process_marker_none s cmd c hm hl]
    | some lab => rw [process_marker_some s cmd c lab hm hl]
  rw [hfin]
  exact extract_label_eq_first_rarg cmd.args

theorem marker_label_first_rarg_witness :
    (process_content initExtractor
        (Content.node (some ⟨"bibitem", [TexArg.oarg, TexArg.rarg "key1"]⟩) none)
      ).current_bibitem_label =
      (([TexArg.oarg, TexArg.rarg "key1"]).filterMap fun a => match a with
        | .rarg v => some v | .oarg => none).head? :=
  marker_label_first_rarg initExtractor ⟨"bibitem", [TexArg.oarg, TexArg.rarg "key1"]⟩
    (Content.node (some ⟨"bibitem", [TexArg.oarg, TexArg.rarg "key1"]⟩) none) (by decide)

/-- C9: a valid-labelled marker immediately followed by another marker still
yields a `Bibitem` for the first marker, with the empty string as text,
rather than being omitted — whatever the prior state, open item included
(finalizing the open item resets the buffer, so the next entry starts
empty). The only hypothesis on the state is the machine's reachability
invariant (absent label implies empty buffer), which `buffer_inv_scan_parents`
establishes for every state `extract` reaches from `initExtractor`. -/
theorem adjacent_markers_empty_text (s : BibitemExtractor) (c₁ c₂ : Content)
    (cmd₁ cmd₂ : TexCmd) (lab : String)
    (hinv : s.current_bibitem_label = none → s.bibitem_text = [])
    (hm₁ : markerCmd c₁ = some cmd₁) (hlab : extract_label cmd₁ = some lab)
    (hm₂ : markerCmd c₂ = some cmd₂) :
    (scan_contents s [c₁, c₂]).bibitems =
      (process_content s c₁).bibitems ++ [⟨lab, []⟩] := by
  cases hl : s.current_bibitem_label with
  | none =>
    have htx : s.bibitem_text = [] := hinv hl
    have h₁ : process_content s c₁ = { s with current_bibitem_label := some lab } := by
      rw [process_marker_none s cmd₁ c₁ hm₁ hl, hlab]
    rw [show scan_contents s [c₁, c₂] =
          process_content (process_content s c₁) c₂ from rfl, h₁,
        process_marker_some { s with current_bibitem_label := some lab } cmd₂ c₂ lab hm₂ rfl]
    show s.bibitems ++ [⟨lab, clean_bibitem_text s.bibitem_text⟩] = s.bibitems ++ [⟨lab, []⟩]
    rw [htx]
    rfl
  | some x =>
    have h₁ : process_content s c₁ =
        { s with current_bibitem_label := some lab, bibitem_text := [],
                 bibitems := s.bibitems ++ [⟨x, clean_bibitem_text s.bibitem_text⟩] } := by
      rw [process_marker_some s cmd₁ c₁ x hm₁ hl, hlab]
    rw [show scan_contents s [c₁, c₂] =
          process_content (process_content s c₁) c₂ from rfl, h₁,
        process_marker_some
          { s with current_bibitem_label := some lab, bibitem_text := [],
                   bibitems := s.bibitems ++ [⟨x, clean_bibitem_text s.bibitem_text⟩] }
          cmd₂ c₂ lab hm₂ rfl]
    rfl

theorem adjacent_markers_empty_text_witness :
    (scan_contents ⟨some "x", " body ".toList, [], []⟩
        [Content.node (some ⟨"bibitem", [TexArg.rarg "a"]⟩) none,
         Content.node (some ⟨"bibitem", [TexArg.rarg "b"]⟩) none]).bibitems =
      (process_content ⟨some "x", " body ".toList, [], []⟩
        (Content.node (some ⟨"bibitem", [TexArg.rarg "a"]⟩) none)).bibitems ++
        [⟨"a", []⟩] :=
  adjacent_markers_empty_text ⟨some "x", " body ".toList, [], []⟩
    (Content.node (some ⟨"bibitem", [TexArg.rarg "a"]⟩) none)
    (Content.node (some ⟨"bibitem", [TexArg.rarg "b"]⟩) none)
    ⟨"bibitem", [TexArg.rarg "a"]⟩ ⟨"bibitem", [TexArg.rarg "b"]⟩ "a"
    (by intro h; exact Option.noConfusion h) (by decide) rfl (by decide)

end ScholarPhi
